import Mathlib

/-!
Verification development for the dejpeg-desktop tiled-inference pipeline
(`src/src/app.ts`).  The TypeScript source is shallowly embedded: machine
numbers become `ℕ`/`ℤ`/`ℚ`, typed-array writes become functional updates,
and the external inference engine / image codec become abstract parameters.
-/

namespace DeJpeg

/-! ## Tile policy constants (src/src/app.ts, lines 23-26) -/

def DEFAULT_CHUNK_SIZE : ℕ := 1200
def SCUNET_CHUNK_SIZE : ℕ := 640
def DEFAULT_OVERLAP : ℕ := 32
def SCUNET_OVERLAP : ℕ := 128

/-- Policy selector `getChunkSizeForModel` (line 111): scunet-family models get a smaller tile. -/
def getChunkSizeForModel (modelName : String) : ℕ :=
  if modelName.startsWith "scunet_" then SCUNET_CHUNK_SIZE else DEFAULT_CHUNK_SIZE

/-- Policy selector `getOverlapForModel` (line 115). -/
def getOverlapForModel (modelName : String) : ℕ :=
  if modelName.startsWith "scunet_" then SCUNET_OVERLAP else DEFAULT_OVERLAP

/-! ## Tile planner (`ImageProcessor.createChunks`, lines 413-464)

One grid axis behaves the same for columns (length `W`) and rows (length `H`),
so the per-cell geometry is factored into 1-D helpers.  JS
`Math.max(0, a - b)` on non-negative operands is `ℕ` truncated subtraction,
and the `chunkWidth <= 0` skip guard is `tileLen = 0` in `ℕ`. -/

/-- Grid cell origin `startX = col * (effectiveChunkSize - overlap)` (line 427). -/
def tileStart (T O c : ℕ) : ℕ := c * (T - O)

/-- Extraction start `chunkX = Math.max(0, startX - (col > 0 ? Math.floor(overlap / 2) : 0))` (line 430). -/
def tilePos (T O c : ℕ) : ℕ := tileStart T O c - (if 0 < c then O / 2 else 0)

/-- The unclamped extraction extent `effectiveChunkSize + (col > 0 ? Math.floor(overlap / 2) : 0)` (line 433). -/
def tileExt (T O c : ℕ) : ℕ := T + (if 0 < c then O / 2 else 0)

/-- Extraction length `chunkWidth = Math.min(tileExt, width - chunkX)` (line 433); the repeated
`Math.min(chunkWidth, width - chunkX)` on line 436 is a no-op. -/
def tileLen (L T O c : ℕ) : ℕ := min (tileExt T O c) (L - tilePos T O c)

/-- Column count `cols = Math.ceil(width / (effectiveChunkSize - overlap))` (line 422),
exact integer ceiling division. -/
def gridCount (L T O : ℕ) : ℕ := (L + (T - O) - 1) / (T - O)

/-- Record `ChunkInfo` (lines 73-84) restricted to the geometric fields (the temp-file
paths are filesystem bookkeeping outside the embedding). -/
structure Chunk where
  x : ℕ
  y : ℕ
  w : ℕ
  h : ℕ
  originalStartX : ℕ
  originalStartY : ℕ
  row : ℕ
  col : ℕ
deriving DecidableEq, Repr

/-- Planner `createChunks` (lines 413-464): row-major double loop, emitting the
extraction rectangle for each grid cell and skipping degenerate ones. -/
def createChunks (W H T O : ℕ) : List Chunk :=
  (List.range (gridCount H T O)).flatMap fun row =>
    (List.range (gridCount W T O)).filterMap fun col =>
      if tileLen W T O col = 0 ∨ tileLen H T O row = 0 then none
      else some
        { x := tilePos T O col
          y := tilePos T O row
          w := tileLen W T O col
          h := tileLen H T O row
          originalStartX := tileStart T O col
          originalStartY := tileStart T O row
          row := row
          col := col }

/-- Progress reports issued by `processImageWithChunking` (lines 361-389):
one `(totalChunks, completedChunks)` pair right after the chunk count is
known, then one after each chunk completes. -/
def chunkProgressReports (W H T O : ℕ) : List (ℕ × ℕ) :=
  let n := (createChunks W H T O).length
  (n, 0) :: (List.range n).map fun i => (n, i + 1)

/-! ## 1-D geometry lemmas for the tile grid -/

lemma tilePos_zero (T O : ℕ) : tilePos T O 0 = 0 := by
  simp [tilePos, tileStart]

lemma tileExt_zero (T O : ℕ) : tileExt T O 0 = T := by
  simp [tileExt]

lemma tilePos_of_pos (T O : ℕ) {c : ℕ} (hc : 0 < c) :
    tilePos T O c = c * (T - O) - O / 2 := by
  simp [tilePos, tileStart, hc]

lemma tileExt_of_pos (T O : ℕ) {c : ℕ} (hc : 0 < c) :
    tileExt T O c = T + O / 2 := by
  simp [tileExt, hc]

/-- Shrinking the position by `O/2` and growing the extent by `O/2` never
loses the right end of the unexpanded cell. -/
lemma tilePos_add_ext_ge (T O c : ℕ) :
    c * (T - O) + T ≤ tilePos T O c + tileExt T O c := by
  rcases Nat.eq_zero_or_pos c with rfl | hc
  · simp [tilePos_zero, tileExt_zero]
  · rw [tilePos_of_pos T O hc, tileExt_of_pos T O hc]
    omega

lemma tilePos_le_start (T O c : ℕ) : tilePos T O c ≤ c * (T - O) := by
  rcases Nat.eq_zero_or_pos c with rfl | hc
  · simp [tilePos_zero]
  · rw [tilePos_of_pos T O hc]
    exact Nat.sub_le _ _

lemma tilePos_mono_succ (T O c : ℕ) : tilePos T O c ≤ tilePos T O (c + 1) := by
  rcases Nat.eq_zero_or_pos c with rfl | hc
  · simp [tilePos_zero]
  · rw [tilePos_of_pos T O hc, tilePos_of_pos T O (Nat.succ_pos c)]
    exact Nat.sub_le_sub_right (Nat.mul_le_mul_right _ (by omega)) _

lemma tileExt_mono_succ (T O c : ℕ) : tileExt T O c ≤ tileExt T O (c + 1) := by
  rcases Nat.eq_zero_or_pos c with rfl | hc
  · rw [tileExt_zero, tileExt_of_pos T O (Nat.succ_pos 0)]
    omega
  · rw [tileExt_of_pos T O hc, tileExt_of_pos T O (Nat.succ_pos c)]

lemma tileExt_pos (T O c : ℕ) (hTO : O < T) : 0 < tileExt T O c := by
  rcases Nat.eq_zero_or_pos c with rfl | hc
  · rw [tileExt_zero]; omega
  · rw [tileExt_of_pos T O hc]; omega

/-- Every coordinate `x < L` is covered by the tile of the column `x / (T-O)`,
and that column index is inside the grid. -/
lemma tile_cover (L T O : ℕ) (hTO : O < T) {x : ℕ} (hx : x < L) :
    x / (T - O) < gridCount L T O ∧
    tilePos T O (x / (T - O)) ≤ x ∧
    x < tilePos T O (x / (T - O)) + tileLen L T O (x / (T - O)) ∧
    tileLen L T O (x / (T - O)) ≠ 0 := by
  have hS : 0 < T - O := by omega
  have hdm : (T - O) * (x / (T - O)) + x % (T - O) = x := Nat.div_add_mod x (T - O)
  have hmod : x % (T - O) < T - O := Nat.mod_lt x hS
  have hmul : (T - O) * (x / (T - O)) = x / (T - O) * (T - O) := Nat.mul_comm _ _
  have hposle : tilePos T O (x / (T - O)) ≤ x := by
    have := tilePos_le_start T O (x / (T - O))
    omega
  have hcount : x / (T - O) < gridCount L T O := by
    have h1 : (L - 1 + (T - O)) / (T - O) = (L - 1) / (T - O) + 1 :=
      Nat.add_div_right _ hS
    have h2 : x / (T - O) ≤ (L - 1) / (T - O) := Nat.div_le_div_right (by omega)
    have h3 : L + (T - O) - 1 = L - 1 + (T - O) := by omega
    unfold gridCount
    rw [h3, h1]
    omega
  have hextpos : 0 < tileExt T O (x / (T - O)) := tileExt_pos T O _ hTO
  have hlen : tileLen L T O (x / (T - O)) =
      min (tileExt T O (x / (T - O))) (L - tilePos T O (x / (T - O))) := rfl
  have hlenne : tileLen L T O (x / (T - O)) ≠ 0 := by
    rw [hlen]
    have h2 : 0 < L - tilePos T O (x / (T - O)) := by omega
    omega
  refine ⟨hcount, hposle, ?_, hlenne⟩
  have hB1 := tilePos_add_ext_ge T O (x / (T - O))
  rcases le_total (tileExt T O (x / (T - O))) (L - tilePos T O (x / (T - O))) with h | h
  · rw [hlen, min_eq_left h]
    omega
  · rw [hlen, min_eq_right h]
    omega

/-- An emitted tile never exceeds the axis bound. -/
lemma tile_within (L T O c : ℕ) (h : tileLen L T O c ≠ 0) :
    tilePos T O c < L ∧ tilePos T O c + tileLen L T O c ≤ L := by
  have h1 : tileLen L T O c ≤ L - tilePos T O c := min_le_right _ _
  have h2 : 0 < tileLen L T O c := Nat.pos_of_ne_zero h
  omega

/-- Adjacent columns: when the left tile's extraction is not clamped at the
image edge, the next tile starts at least `O` before it ends, and ends no
earlier. -/
lemma tile_adjacent (L T O c : ℕ) (hTO : O < T)
    (hedge : tilePos T O c + tileLen L T O c < L) :
    tilePos T O (c + 1) + O ≤ tilePos T O c + tileLen L T O c ∧
    tilePos T O c + tileLen L T O c ≤ tilePos T O (c + 1) + tileLen L T O (c + 1) ∧
    tilePos T O c ≤ tilePos T O (c + 1) := by
  have hlen : tileLen L T O c = min (tileExt T O c) (L - tilePos T O c) := rfl
  -- the edge hypothesis forces the unclamped branch of the min
  have heq : tileLen L T O c = tileExt T O c := by
    rcases le_total (tileExt T O c) (L - tilePos T O c) with h | h
    · rw [hlen, min_eq_left h]
    · rw [hlen, min_eq_right h] at hedge ⊢
      omega
  have hB1 := tilePos_add_ext_ge T O c
  have hsucc : tilePos T O (c + 1) = (c + 1) * (T - O) - O / 2 :=
    tilePos_of_pos T O (Nat.succ_pos c)
  have hmul : (c + 1) * (T - O) = c * (T - O) + (T - O) := Nat.succ_mul c (T - O)
  have hstart := tilePos_le_start T O c
  refine ⟨?_, ?_, tilePos_mono_succ T O c⟩
  · -- overlap of at least O
    rw [heq]
    rcases Nat.eq_zero_or_pos c with rfl | hc
    · rw [tilePos_zero, tileExt_zero] at *
      omega
    · rw [tilePos_of_pos T O hc, tileExt_of_pos T O hc] at *
      omega
  · -- the next tile reaches at least as far right
    have hlen1 : tileLen L T O (c + 1) =
        min (tileExt T O (c + 1)) (L - tilePos T O (c + 1)) := rfl
    have hpm := tilePos_mono_succ T O c
    have hem := tileExt_mono_succ T O c
    rw [heq] at hedge ⊢
    rcases le_total (tileExt T O (c + 1)) (L - tilePos T O (c + 1)) with h | h
    · rw [hlen1, min_eq_left h]
      omega
    · rw [hlen1, min_eq_right h]
      omega

/-! ## Membership in the emitted chunk list -/

lemma mem_createChunks (W H T O : ℕ) {ch : Chunk} :
    ch ∈ createChunks W H T O ↔
      ∃ row col, row < gridCount H T O ∧ col < gridCount W T O ∧
        tileLen W T O col ≠ 0 ∧ tileLen H T O row ≠ 0 ∧
        ch = { x := tilePos T O col, y := tilePos T O row,
               w := tileLen W T O col, h := tileLen H T O row,
               originalStartX := tileStart T O col,
               originalStartY := tileStart T O row,
               row := row, col := col } := by
  unfold createChunks
  simp only [List.mem_flatMap, List.mem_filterMap, List.mem_range]
  constructor
  · rintro ⟨row, hrow, col, hcol, hsome⟩
    by_cases h : tileLen W T O col = 0 ∨ tileLen H T O row = 0
    · simp [h] at hsome
    · rw [if_neg h] at hsome
      push_neg at h
      exact ⟨row, col, hrow, hcol, h.1, h.2, (Option.some_inj.mp hsome).symm⟩
  · rintro ⟨row, col, hrow, hcol, hW0, hH0, rfl⟩
    exact ⟨row, hrow, col, hcol, by rw [if_neg (by tauto)]⟩

/-- C1: For every image `W × H` (both ≥ 1) and tile policy `T > O ≥ 0`,
the rectangles emitted by `createChunks` all have positive width and height,
and their union is exactly `[0,W) × [0,H)`: a point is inside the image iff
some emitted chunk contains it. -/
theorem claim_c1 (W H T O : ℕ) (_hW : 1 ≤ W) (_hH : 1 ≤ H) (hTO : O < T) :
    (∀ ch ∈ createChunks W H T O, 0 < ch.w ∧ 0 < ch.h) ∧
    (∀ x y : ℕ, (x < W ∧ y < H) ↔ ∃ ch ∈ createChunks W H T O,
        ch.x ≤ x ∧ x < ch.x + ch.w ∧ ch.y ≤ y ∧ y < ch.y + ch.h) := by
  constructor
  · intro ch hch
    rcases (mem_createChunks W H T O).mp hch with ⟨row, col, _, _, hW0, hH0, rfl⟩
    exact ⟨Nat.pos_of_ne_zero hW0, Nat.pos_of_ne_zero hH0⟩
  · intro x y
    constructor
    · rintro ⟨hx, hy⟩
      obtain ⟨hcx, hpx, hlx, hnx⟩ := tile_cover W T O hTO hx
      obtain ⟨hcy, hpy, hly, hny⟩ := tile_cover H T O hTO hy
      exact ⟨_, (mem_createChunks W H T O).mpr
        ⟨y / (T - O), x / (T - O), hcy, hcx, hnx, hny, rfl⟩, hpx, hlx, hpy, hly⟩
    · rintro ⟨ch, hch, h1, h2, h3, h4⟩
      rcases (mem_createChunks W H T O).mp hch with ⟨row, col, _, _, hW0, hH0, rfl⟩
      have hwx := tile_within W T O col hW0
      have hwy := tile_within H T O row hH0
      dsimp only at h1 h2 h3 h4
      exact ⟨by omega, by omega⟩

/-- Witness for C1: the positivity conclusion instantiated on the 5×5 image
with policy `T = 3`, `O = 1`, at the emitted chunk of cell `(0,0)`. -/
theorem claim_c1_witness :
    0 < (Chunk.mk 0 0 3 3 0 0 0 0).w ∧ 0 < (Chunk.mk 0 0 3 3 0 0 0 0).h :=
  (claim_c1 5 5 3 1 (by decide) (by decide) (by decide)).1
    (Chunk.mk 0 0 3 3 0 0 0 0) (by decide)

/-- C5: Two chunks adjacent in the grid overlap by at least `O` on the
shared axis, unless the earlier chunk is clamped at the image edge on that
axis.  Both the column-adjacent and the row-adjacent cases are stated: the
intersection interval runs from the later chunk's start to the earlier
chunk's end and has length at least `O`. -/
theorem claim_c5 (W H T O : ℕ) (ch1 ch2 : Chunk) (hTO : O < T)
    (h1 : ch1 ∈ createChunks W H T O) (h2 : ch2 ∈ createChunks W H T O) :
    ((ch1.row = ch2.row ∧ ch2.col = ch1.col + 1 ∧ ch1.x + ch1.w < W) →
      ch1.x ≤ ch2.x ∧ ch2.x + O ≤ ch1.x + ch1.w ∧ ch1.x + ch1.w ≤ ch2.x + ch2.w) ∧
    ((ch1.col = ch2.col ∧ ch2.row = ch1.row + 1 ∧ ch1.y + ch1.h < H) →
      ch1.y ≤ ch2.y ∧ ch2.y + O ≤ ch1.y + ch1.h ∧ ch1.y + ch1.h ≤ ch2.y + ch2.h) := by
  rcases (mem_createChunks W H T O).mp h1 with ⟨r1, c1, _, _, _, _, rfl⟩
  rcases (mem_createChunks W H T O).mp h2 with ⟨r2, c2, _, _, _, _, rfl⟩
  dsimp only
  constructor
  · rintro ⟨-, hcol, hedge⟩
    subst hcol
    have := tile_adjacent W T O c1 hTO hedge
    exact ⟨this.2.2, this.1, this.2.1⟩
  · rintro ⟨-, hrow, hedge⟩
    subst hrow
    have := tile_adjacent H T O r1 hTO hedge
    exact ⟨this.2.2, this.1, this.2.1⟩

/-- Witness for C5: the 5×5 image with policy `T = 3`, `O = 1`; cells `(0,0)`
and `(0,1)` produce chunks `[0,3)` and `[2,5)` on the x-axis, overlapping by
`1 ≥ O`. -/
theorem claim_c5_witness :
    (Chunk.mk 0 0 3 3 0 0 0 0).x ≤ (Chunk.mk 2 0 3 3 2 0 0 1).x ∧
    (Chunk.mk 2 0 3 3 2 0 0 1).x + 1 ≤
      (Chunk.mk 0 0 3 3 0 0 0 0).x + (Chunk.mk 0 0 3 3 0 0 0 0).w ∧
    (Chunk.mk 0 0 3 3 0 0 0 0).x + (Chunk.mk 0 0 3 3 0 0 0 0).w ≤
      (Chunk.mk 2 0 3 3 2 0 0 1).x + (Chunk.mk 2 0 3 3 2 0 0 1).w :=
  (claim_c5 5 5 3 1 (Chunk.mk 0 0 3 3 0 0 0 0) (Chunk.mk 2 0 3 3 2 0 0 1)
    (by decide) (by decide) (by decide)).1 ⟨by decide, by decide, by decide⟩

/-! ## The grid size is an exact ceiling division -/

lemma gridCount_mul_ge (L T O : ℕ) (hTO : O < T) :
    L ≤ gridCount L T O * (T - O) := by
  have hS : 0 < T - O := by omega
  have hdm : (T - O) * ((L + (T - O) - 1) / (T - O)) + (L + (T - O) - 1) % (T - O) =
      L + (T - O) - 1 := Nat.div_add_mod _ _
  have hmod : (L + (T - O) - 1) % (T - O) < T - O := Nat.mod_lt _ hS
  have hmul : (T - O) * ((L + (T - O) - 1) / (T - O)) =
      (L + (T - O) - 1) / (T - O) * (T - O) := Nat.mul_comm _ _
  unfold gridCount
  omega

lemma gridCount_mul_lt (L T O : ℕ) (hTO : O < T) :
    gridCount L T O * (T - O) < L + (T - O) := by
  have hS : 0 < T - O := by omega
  have h := Nat.div_mul_le_self (L + (T - O) - 1) (T - O)
  unfold gridCount
  omega

lemma gridCount_eq_ceil (L T O : ℕ) (hTO : O < T) :
    (gridCount L T O : ℤ) = ⌈(L : ℚ) / ((T : ℚ) - (O : ℚ))⌉ := by
  have hS : 0 < T - O := by omega
  have hcast : (T : ℚ) - (O : ℚ) = ((T - O : ℕ) : ℚ) := by
    rw [Nat.cast_sub hTO.le]
  have hSQ : (0 : ℚ) < ((T - O : ℕ) : ℚ) := by exact_mod_cast hS
  rw [hcast]
  symm
  rw [Int.ceil_eq_iff]
  constructor
  · rw [lt_div_iff₀ hSQ]
    have h2 : (gridCount L T O : ℚ) * ((T - O : ℕ) : ℚ) < (L : ℚ) + ((T - O : ℕ) : ℚ) := by
      exact_mod_cast gridCount_mul_lt L T O hTO
    have h3 : ((gridCount L T O : ℤ) - 1 : ℚ) * ((T - O : ℕ) : ℚ) =
        (gridCount L T O : ℚ) * ((T - O : ℕ) : ℚ) - ((T - O : ℕ) : ℚ) := by
      push_cast
      ring
    rw [h3]
    linarith
  · rw [div_le_iff₀ hSQ]
    have h1 : (L : ℚ) ≤ (gridCount L T O : ℚ) * ((T - O : ℕ) : ℚ) := by
      exact_mod_cast gridCount_mul_ge L T O hTO
    push_cast
    linarith

/-- C3: The planner's grid is `cols = ⌈W/(T-O)⌉` by `rows = ⌈H/(T-O)⌉`
(exact real ceiling), tiles are emitted row-major, and the 2000×2000 image
under the default policy (tile 1200, overlap 32) yields exactly the 2×2 grid
of 4 tiles, with the chunked-path progress reports carrying
`total_tiles = 4` throughout and `completed_tiles` incrementing `1,2,3,4`
after the initial count report. -/
theorem claim_c3 :
    (∀ W H T O : ℕ, O < T →
      (gridCount W T O : ℤ) = ⌈(W : ℚ) / ((T : ℚ) - (O : ℚ))⌉ ∧
      (gridCount H T O : ℤ) = ⌈(H : ℚ) / ((T : ℚ) - (O : ℚ))⌉) ∧
    createChunks 2000 2000 DEFAULT_CHUNK_SIZE DEFAULT_OVERLAP =
      [⟨0, 0, 1200, 1200, 0, 0, 0, 0⟩, ⟨1152, 0, 848, 1200, 1168, 0, 0, 1⟩,
       ⟨0, 1152, 1200, 848, 0, 1168, 1, 0⟩, ⟨1152, 1152, 848, 848, 1168, 1168, 1, 1⟩] ∧
    chunkProgressReports 2000 2000 DEFAULT_CHUNK_SIZE DEFAULT_OVERLAP =
      [(4, 0), (4, 1), (4, 2), (4, 3), (4, 4)] := by
  refine ⟨fun W H T O hTO => ⟨gridCount_eq_ceil W T O hTO, gridCount_eq_ceil H T O hTO⟩, ?_, ?_⟩
  · rfl
  · rfl

/-- Witness for C3: the general ceiling formulas instantiated at the default
policy on the 2000×2000 image. -/
theorem claim_c3_witness :
    (gridCount 2000 1200 32 : ℤ) = ⌈(2000 : ℚ) / ((1200 : ℚ) - (32 : ℚ))⌉ ∧
    (gridCount 2000 1200 32 : ℤ) = ⌈(2000 : ℚ) / ((1200 : ℚ) - (32 : ℚ))⌉ :=
  claim_c3.1 2000 2000 1200 32 (by decide)

/-! ## Typed-array writes as functional updates

The tensor marshalling code of `processChunk` fills `Float32Array`s and a
`Buffer` with nested index loops.  A loop body `arr[i] = v` becomes a
functional update, and a loop nest becomes a fold of updates over the
row-major list of loop indices. -/

def writeAt {α : Type} (b : ℕ → α) (i : ℕ) (v : α) : ℕ → α :=
  fun j => if j = i then v else b j

def writeList {α : Type} (ps : List (ℕ × α)) (b : ℕ → α) : ℕ → α :=
  ps.foldl (fun acc p => writeAt acc p.1 p.2) b

lemma writeList_nil {α : Type} (b : ℕ → α) : writeList [] b = b := rfl

lemma writeList_cons {α : Type} (p : ℕ × α) (ps : List (ℕ × α)) (b : ℕ → α) :
    writeList (p :: ps) b = writeList ps (writeAt b p.1 p.2) := rfl

lemma writeAt_self {α : Type} (b : ℕ → α) (i : ℕ) (v : α) : writeAt b i v i = v := by
  simp [writeAt]

lemma writeAt_other {α : Type} (b : ℕ → α) {i j : ℕ} (v : α) (h : j ≠ i) :
    writeAt b i v j = b j := by
  simp [writeAt, h]

/-- A cell no write targets keeps its initial value. -/
lemma writeList_apply_untouched {α : Type} :
    ∀ (ps : List (ℕ × α)) (b : ℕ → α) (i : ℕ), (∀ p ∈ ps, p.1 ≠ i) →
      writeList ps b i = b i := by
  intro ps
  induction ps with
  | nil => intro b i _; rfl
  | cons p ps ih =>
    intro b i h
    rw [writeList_cons, ih _ _ fun q hq => h q (List.mem_cons_of_mem p hq)]
    exact writeAt_other b p.2
      (show i ≠ p.1 from fun hip => h p (List.mem_cons_self p ps) hip.symm)

/-- If every write aimed at cell `i` writes the same value `v`, and at least
one such write occurs, the cell ends up holding `v` (order-independence of
non-conflicting loop writes). -/
lemma writeList_apply_of_forall {α : Type} :
    ∀ (ps : List (ℕ × α)) (b : ℕ → α) (i : ℕ) (v : α),
      (∃ p ∈ ps, p.1 = i) → (∀ p ∈ ps, p.1 = i → p.2 = v) →
      writeList ps b i = v := by
  intro ps
  induction ps with
  | nil => rintro b i v ⟨p, hp, -⟩ _; exact absurd hp (List.not_mem_nil p)
  | cons p ps ih =>
    intro b i v hmem hall
    rw [writeList_cons]
    by_cases hrest : ∃ q ∈ ps, q.1 = i
    · exact ih _ _ _ hrest fun q hq hqi => hall q (List.mem_cons_of_mem p hq) hqi
    · have hp : p.1 = i := by
        rcases hmem with ⟨q, hq, hqi⟩
        rcases List.mem_cons.mp hq with rfl | hq'
        · exact hqi
        · exact absurd ⟨q, hq', hqi⟩ hrest
      rw [writeList_apply_untouched ps _ i fun q hq hqi => hrest ⟨q, hq, hqi⟩]
      rw [← hp, writeAt_self]
      exact (hall p (List.mem_cons_self p ps) hp).symm ▸ rfl

/-! ## Index arithmetic for planar / interleaved layouts -/

/-- Euclidean uniqueness used to show distinct loop indices hit distinct
cells. -/
lemma mul_add_cancel_of_lt {K a b a' b' : ℕ} (hb : b < K) (hb' : b' < K)
    (h : a * K + b = a' * K + b') : a = a' ∧ b = b' := by
  have hK : 0 < K := by omega
  have h1 : (a * K + b) / K = a := by
    rw [Nat.add_comm, Nat.add_mul_div_right _ _ hK, Nat.div_eq_of_lt hb, Nat.zero_add]
  have h2 : (a' * K + b') / K = a' := by
    rw [Nat.add_comm, Nat.add_mul_div_right _ _ hK, Nat.div_eq_of_lt hb', Nat.zero_add]
  have ha : a = a' := by rw [← h1, ← h2, h]
  subst ha
  exact ⟨rfl, by omega⟩

/-- Interleaved (HWC) index injectivity: `h*W*C + w*C + c`. -/
lemma hwc_index_inj {C W h h' w w' c c' : ℕ} (hw : w < W) (hw' : w' < W)
    (hc : c < C) (hc' : c' < C)
    (heq : h * W * C + w * C + c = h' * W * C + w' * C + c') :
    h = h' ∧ w = w' ∧ c = c' := by
  have hlt : w * C + c < W * C := by
    calc w * C + c < w * C + C := by omega
    _ = (w + 1) * C := by ring
    _ ≤ W * C := Nat.mul_le_mul_right C hw
  have hlt' : w' * C + c' < W * C := by
    calc w' * C + c' < w' * C + C := by omega
    _ = (w' + 1) * C := by ring
    _ ≤ W * C := Nat.mul_le_mul_right C hw'
  have heq' : h * (W * C) + (w * C + c) = h' * (W * C) + (w' * C + c') := by
    calc h * (W * C) + (w * C + c) = h * W * C + w * C + c := by ring
    _ = h' * W * C + w' * C + c' := heq
    _ = h' * (W * C) + (w' * C + c') := by ring
  obtain ⟨hh, hrest⟩ := mul_add_cancel_of_lt hlt hlt' heq'
  obtain ⟨hww, hcc⟩ := mul_add_cancel_of_lt hc hc' hrest
  exact ⟨hh, hww, hcc⟩

/-- Planar (CHW) index injectivity: `c*H*W + h*W + w`. -/
lemma chw_index_inj {H W c c' h h' w w' : ℕ} (hh : h < H) (hh' : h' < H)
    (hw : w < W) (hw' : w' < W)
    (heq : c * H * W + h * W + w = c' * H * W + h' * W + w') :
    c = c' ∧ h = h' ∧ w = w' := by
  have hlt : h * W + w < H * W := by
    calc h * W + w < h * W + W := by omega
    _ = (h + 1) * W := by ring
    _ ≤ H * W := Nat.mul_le_mul_right W hh
  have hlt' : h' * W + w' < H * W := by
    calc h' * W + w' < h' * W + W := by omega
    _ = (h' + 1) * W := by ring
    _ ≤ H * W := Nat.mul_le_mul_right W hh'
  have heq' : c * (H * W) + (h * W + w) = c' * (H * W) + (h' * W + w') := by
    calc c * (H * W) + (h * W + w) = c * H * W + h * W + w := by ring
    _ = c' * H * W + h' * W + w' := heq
    _ = c' * (H * W) + (h' * W + w') := by ring
  obtain ⟨hcc, hrest⟩ := mul_add_cancel_of_lt hlt hlt' heq'
  obtain ⟨hhh, hww⟩ := mul_add_cancel_of_lt hw hw' hrest
  exact ⟨hcc, hhh, hww⟩

/-- Pixel index injectivity: `h*W + w`. -/
lemma hw_index_inj {W h h' w w' : ℕ} (hw : w < W) (hw' : w' < W)
    (heq : h * W + w = h' * W + w') : h = h' ∧ w = w' :=
  mul_add_cancel_of_lt hw hw' heq

/-! ## Tensor codec (`processChunk`, lines 477-543)

Pixel bytes and tensor values are modelled over `ℚ` (the JS arithmetic is
floating point; claims about it carry an explicit per-element perturbation
accounting for rounding).  `Float32Array`s are zero-initialised, as in JS. -/

/-- Grayscale encode loop (lines 479-489): `inputArray[idx] = gray / 255`
with `gray` the single channel, or the three-channel average `(r+g+b)/3`. -/
def encodeGrayPairs (data : ℕ → ℚ) (channels H W : ℕ) : List (ℕ × ℚ) :=
  (List.range H).flatMap fun h => (List.range W).map fun w =>
    (h * W + w,
      (if channels = 1 then data ((h * W + w) * channels)
       else (data ((h * W + w) * channels) + data ((h * W + w) * channels + 1) +
             data ((h * W + w) * channels + 2)) / 3) / 255)

def encodeGray (data : ℕ → ℚ) (channels H W : ℕ) : ℕ → ℚ :=
  writeList (encodeGrayPairs data channels H W) fun _ => 0

/-- Color encode main loop (lines 491-502): plane `c < min(channels, 3)` at
planar index `c*H*W + h*W + w` takes `data[(h*W + w)*channels + c] / 255`. -/
def encodeColorMainPairs (data : ℕ → ℚ) (channels H W : ℕ) : List (ℕ × ℚ) :=
  (List.range (min channels 3)).flatMap fun c =>
    (List.range H).flatMap fun h => (List.range W).map fun w =>
      (c * H * W + h * W + w, data ((h * W + w) * channels + c) / 255)

def encodeColorMain (data : ℕ → ℚ) (channels H W : ℕ) : ℕ → ℚ :=
  writeList (encodeColorMainPairs data channels H W) fun _ => 0

/-- Color encode with the replicate loop (lines 504-514): planes beyond
`min(channels,3)` copy the last produced plane. -/
def encodeColor (data : ℕ → ℚ) (channels H W : ℕ) : ℕ → ℚ :=
  writeList
    (((List.range 3).drop (min channels 3)).flatMap fun c =>
      (List.range H).flatMap fun h => (List.range W).map fun w =>
        (c * H * W + h * W + w,
         encodeColorMain data channels H W ((min channels 3 - 1) * H * W + h * W + w)))
    (encodeColorMain data channels H W)

/-- Decode loop (lines 532-543): interleaved byte `h*W*C + w*C + c` is
`Math.floor(Math.min(Math.max(v * 255, 0), 255))` of the planar tensor value
`v` at `c*H*W + h*W + w`, written into a zeroed buffer. -/
def decodePairs (outData : ℕ → ℚ) (C H W : ℕ) : List (ℕ × ℤ) :=
  (List.range C).flatMap fun c => (List.range H).flatMap fun h =>
    (List.range W).map fun w =>
      (h * W * C + w * C + c, ⌊min (max (outData (c * H * W + h * W + w) * 255) 0) 255⌋)

def decodeChunkOutput (outData : ℕ → ℚ) (C H W : ℕ) : ℕ → ℤ :=
  writeList (decodePairs outData C H W) fun _ => 0

/-! ## Pointwise evaluation of the codec loops -/

lemma mem_decodePairs {outData : ℕ → ℚ} {C H W : ℕ} {p : ℕ × ℤ} :
    p ∈ decodePairs outData C H W ↔
      ∃ c < C, ∃ h < H, ∃ w < W,
        p = (h * W * C + w * C + c,
             ⌊min (max (outData (c * H * W + h * W + w) * 255) 0) 255⌋) := by
  simp [decodePairs, List.mem_flatMap, List.mem_map, List.mem_range, eq_comm]

lemma decodeChunkOutput_apply (outData : ℕ → ℚ) (C H W : ℕ) {c h w : ℕ}
    (hc : c < C) (hh : h < H) (hw : w < W) :
    decodeChunkOutput outData C H W (h * W * C + w * C + c) =
      ⌊min (max (outData (c * H * W + h * W + w) * 255) 0) 255⌋ := by
  apply writeList_apply_of_forall
  · exact ⟨_, mem_decodePairs.mpr ⟨c, hc, h, hh, w, hw, rfl⟩, rfl⟩
  · rintro p hp hpi
    rcases mem_decodePairs.mp hp with ⟨c', hc', h', hh', w', hw', rfl⟩
    obtain ⟨he1, he2, he3⟩ := hwc_index_inj hw' hw hc' hc hpi
    subst he1; subst he2; subst he3
    rfl

lemma mem_encodeColorMainPairs {data : ℕ → ℚ} {channels H W : ℕ} {p : ℕ × ℚ} :
    p ∈ encodeColorMainPairs data channels H W ↔
      ∃ c < min channels 3, ∃ h < H, ∃ w < W,
        p = (c * H * W + h * W + w, data ((h * W + w) * channels + c) / 255) := by
  simp [encodeColorMainPairs, List.mem_flatMap, List.mem_map, List.mem_range, eq_comm]

lemma encodeColorMain_apply (data : ℕ → ℚ) (channels H W : ℕ) {c h w : ℕ}
    (hc : c < min channels 3) (hh : h < H) (hw : w < W) :
    encodeColorMain data channels H W (c * H * W + h * W + w) =
      data ((h * W + w) * channels + c) / 255 := by
  apply writeList_apply_of_forall
  · exact ⟨_, mem_encodeColorMainPairs.mpr ⟨c, hc, h, hh, w, hw, rfl⟩, rfl⟩
  · rintro p hp hpi
    rcases mem_encodeColorMainPairs.mp hp with ⟨c', hc', h', hh', w', hw', rfl⟩
    obtain ⟨he1, he2, he3⟩ := chw_index_inj hh' hh hw' hw hpi
    subst he1; subst he2; subst he3
    rfl

/-- With a 3-channel source the replicate loop is empty. -/
lemma encodeColor_three (data : ℕ → ℚ) (H W : ℕ) :
    encodeColor data 3 H W = encodeColorMain data 3 H W := rfl

lemma mem_encodeGrayPairs {data : ℕ → ℚ} {channels H W : ℕ} {p : ℕ × ℚ} :
    p ∈ encodeGrayPairs data channels H W ↔
      ∃ h < H, ∃ w < W,
        p = (h * W + w,
          (if channels = 1 then data ((h * W + w) * channels)
           else (data ((h * W + w) * channels) + data ((h * W + w) * channels + 1) +
                 data ((h * W + w) * channels + 2)) / 3) / 255) := by
  simp [encodeGrayPairs, List.mem_flatMap, List.mem_map, List.mem_range, eq_comm]

lemma encodeGray_apply (data : ℕ → ℚ) (channels H W : ℕ) {h w : ℕ}
    (hh : h < H) (hw : w < W) :
    encodeGray data channels H W (h * W + w) =
      (if channels = 1 then data ((h * W + w) * channels)
       else (data ((h * W + w) * channels) + data ((h * W + w) * channels + 1) +
             data ((h * W + w) * channels + 2)) / 3) / 255 := by
  apply writeList_apply_of_forall
  · exact ⟨_, mem_encodeGrayPairs.mpr ⟨h, hh, w, hw, rfl⟩, rfl⟩
  · rintro p hp hpi
    rcases mem_encodeGrayPairs.mp hp with ⟨h', hh', w', hw', rfl⟩
    obtain ⟨he1, he2⟩ := hw_index_inj hw' hw hpi
    subst he1; subst he2
    rfl

/-- C9: Grayscale encode: with a 3-channel source the tensor value at
pixel `(h,w)` is the mean of the three channel bytes divided by 255; a
1-channel source passes its single channel through divided by 255. -/
theorem claim_c9 (data : ℕ → ℚ) (H W h w : ℕ) (hh : h < H) (hw : w < W) :
    encodeGray data 3 H W (h * W + w) =
      ((∑ i ∈ Finset.range 3, data ((h * W + w) * 3 + i)) / 3) / 255 ∧
    encodeGray data 1 H W (h * W + w) = data (h * W + w) / 255 := by
  constructor
  · rw [encodeGray_apply data 3 H W hh hw]
    rw [if_neg (by norm_num)]
    rw [Finset.sum_range_succ, Finset.sum_range_succ, Finset.sum_range_one]
    norm_num
  · rw [encodeGray_apply data 1 H W hh hw]
    rw [if_pos rfl, Nat.mul_one]

/-- Witness for C9: a 1×1 image whose byte at pixel 0 is the index function. -/
theorem claim_c9_witness :
    encodeGray (fun i => (i : ℚ)) 3 1 1 (0 * 1 + 0) =
      ((∑ i ∈ Finset.range 3, ((fun i : ℕ => (i : ℚ)) ((0 * 1 + 0) * 3 + i))) / 3) / 255 ∧
    encodeGray (fun i => (i : ℚ)) 1 1 1 (0 * 1 + 0) =
      (fun i : ℕ => (i : ℚ)) (0 * 1 + 0) / 255 :=
  claim_c9 (fun i => (i : ℚ)) 1 1 0 0 (by decide) (by decide)

/-- C7: Decode: the interleaved output byte at `(h,w,c)` equals
`⌊min(max(v*255, 0), 255)⌋` for the planar tensor value `v` at `(c,h,w)`
(clamped before flooring), and the resulting byte always lies in `[0,255]`:
no wrap-around or integer overflow can occur. -/
theorem claim_c7 (outData : ℕ → ℚ) (C H W c h w : ℕ)
    (hc : c < C) (hh : h < H) (hw : w < W) :
    decodeChunkOutput outData C H W (h * W * C + w * C + c) =
      ⌊min (max (outData (c * H * W + h * W + w) * 255) 0) 255⌋ ∧
    0 ≤ decodeChunkOutput outData C H W (h * W * C + w * C + c) ∧
    decodeChunkOutput outData C H W (h * W * C + w * C + c) ≤ 255 := by
  have happ := decodeChunkOutput_apply outData C H W hc hh hw
  refine ⟨happ, ?_, ?_⟩
  · rw [happ]
    refine Int.le_floor.mpr ?_
    push_cast
    exact le_min (le_max_right _ _) (by norm_num)
  · rw [happ]
    calc ⌊min (max (outData (c * H * W + h * W + w) * 255) 0) 255⌋
        ≤ ⌊(255 : ℚ)⌋ := Int.floor_le_floor (min_le_right _ _)
      _ = 255 := by norm_num

/-- Witness for C7: a constant half-intensity tensor on a 1×1×1 shape. -/
theorem claim_c7_witness :
    decodeChunkOutput (fun _ => 1 / 2) 1 1 1 (0 * 1 * 1 + 0 * 1 + 0) =
      ⌊min (max ((fun _ : ℕ => (1 / 2 : ℚ)) (0 * 1 * 1 + 0 * 1 + 0) * 255) 0) 255⌋ ∧
    0 ≤ decodeChunkOutput (fun _ => 1 / 2) 1 1 1 (0 * 1 * 1 + 0 * 1 + 0) ∧
    decodeChunkOutput (fun _ => 1 / 2) 1 1 1 (0 * 1 * 1 + 0 * 1 + 0) ≤ 255 :=
  claim_c7 (fun _ => 1 / 2) 1 1 1 0 0 0 (by decide) (by decide) (by decide)

/-- C6: Encode/decode round trip with an identity model: a 3-channel
8-bit buffer encoded to the planar tensor (bytes divided by 255), perturbed
per element by at most `1/512` (covering 32-bit float rounding), and decoded
back, reproduces every byte within 1 intensity level. -/
theorem claim_c6 (d : ℕ → ℤ) (e : ℕ → ℚ) (H W h w c : ℕ)
    (hh : h < H) (hw : w < W) (hc : c < 3)
    (hd0 : 0 ≤ d ((h * W + w) * 3 + c)) (hd255 : d ((h * W + w) * 3 + c) ≤ 255)
    (he : ∀ i, |e i| ≤ 1 / 512) :
    |decodeChunkOutput
        (fun i => encodeColor (fun j => (d j : ℚ)) 3 H W i + e i) 3 H W
        (h * W * 3 + w * 3 + c) - d ((h * W + w) * 3 + c)| ≤ 1 := by
  have happ := decodeChunkOutput_apply
    (fun i => encodeColor (fun j => (d j : ℚ)) 3 H W i + e i) 3 H W hc hh hw
  have henc : encodeColor (fun j => (d j : ℚ)) 3 H W (c * H * W + h * W + w) =
      (d ((h * W + w) * 3 + c) : ℚ) / 255 := by
    rw [encodeColor_three]
    exact encodeColorMain_apply (fun j => (d j : ℚ)) 3 H W (by omega) hh hw
  rw [happ]
  dsimp only
  rw [henc]
  set q : ℚ := (d ((h * W + w) * 3 + c) : ℚ) with hq
  set ε : ℚ := e (c * H * W + h * W + w) with hε
  have hq0 : 0 ≤ q := by rw [hq]; exact_mod_cast hd0
  have hq255 : q ≤ 255 := by rw [hq]; exact_mod_cast hd255
  have hεabs : |ε| ≤ 1 / 512 := he _
  have hεlo : -(1 / 512) ≤ ε := (abs_le.mp hεabs).1
  have hεhi : ε ≤ 1 / 512 := (abs_le.mp hεabs).2
  have ht : (q / 255 + ε) * 255 = q + ε * 255 := by ring
  rw [ht]
  have hm_lo : q - 1 ≤ min (max (q + ε * 255) 0) 255 := by
    refine le_min (le_trans ?_ (le_max_left _ _)) (by linarith)
    linarith
  have hm_hi : min (max (q + ε * 255) 0) 255 < q + 1 := by
    refine lt_of_le_of_lt (min_le_left _ _) ?_
    have : max (q + ε * 255) 0 ≤ max (q + 1 / 2) 0 := max_le_max (by linarith) le_rfl
    have h2 : max (q + 1 / 2) 0 = q + 1 / 2 := max_eq_left (by linarith)
    linarith [this, h2.le, h2.ge]
  have hfl_lo : d ((h * W + w) * 3 + c) - 1 ≤ ⌊min (max (q + ε * 255) 0) 255⌋ := by
    refine Int.le_floor.mpr ?_
    push_cast
    rw [← hq]
    linarith
  have hfl_hi : ⌊min (max (q + ε * 255) 0) 255⌋ < d ((h * W + w) * 3 + c) + 1 := by
    refine Int.floor_lt.mpr ?_
    push_cast
    rw [← hq]
    linarith
  rw [abs_le]
  omega

/-- Witness for C6: a constant byte value 100 on a 1×1 image, zero
perturbation. -/
theorem claim_c6_witness :
    |decodeChunkOutput
        (fun i => encodeColor (fun _ => ((100 : ℤ) : ℚ)) 3 1 1 i + (0 : ℚ)) 3 1 1
        (0 * 1 * 3 + 0 * 3 + 0) - (100 : ℤ)| ≤ 1 :=
  claim_c6 (fun _ => 100) (fun _ => 0) 1 1 0 0 0 (by decide) (by decide) (by decide)
    (by decide) (by decide) (fun _ => by norm_num)

/-! ## Processor request lifecycle (`ImageProcessor.processImage`, lines 302-346) -/

/-- Record `ProcessingState` (lines 94-99). -/
structure PState where
  totalChunks : ℕ
  completedChunks : ℕ
  currentImage : ℕ
  totalImages : ℕ
deriving DecidableEq, Repr

/-- The reset value assigned at the start of `processImage` (lines 312-317). -/
def resetPState : PState := ⟨0, 0, 1, 1⟩

inductive ProcError
  | noModelLoaded
  | busy
  | bodyFailed
deriving DecidableEq, Repr

/-- The mutable processor fields `processImage` touches; `modelLoaded`
stands for `session !== null && modelInfo !== null`. -/
structure ProcessorSt where
  modelLoaded : Bool
  processing : Bool
  processingState : PState
deriving DecidableEq, Repr

/-- Request entry `processImage` (lines 302-346) as a state transition.  The guards run in
source order: no-model check, then the busy check (both before any state
mutation).  The try-block (decode and single-tile or chunked processing) is
abstracted as `body`, mapping the freshly reset `ProcessingState` to its
final value plus either a result buffer or a failure; the `finally` clears
the busy flag on both paths. -/
def processImage (s : ProcessorSt) (body : PState → PState × Except Unit ℕ) :
    ProcessorSt × Except ProcError ℕ :=
  if s.modelLoaded = false then (s, Except.error ProcError.noModelLoaded)
  else if s.processing = true then (s, Except.error ProcError.busy)
  else
    match body resetPState with
    | (ps, Except.ok buf) =>
      ({ modelLoaded := s.modelLoaded, processing := false, processingState := ps },
       Except.ok buf)
    | (ps, Except.error _) =>
      ({ modelLoaded := s.modelLoaded, processing := false, processingState := ps },
       Except.error ProcError.bodyFailed)

lemma processImage_not_busy (s : ProcessorSt) (body : PState → PState × Except Unit ℕ)
    (hml : s.modelLoaded = true) (hp : s.processing = false) :
    (processImage s body).1.modelLoaded = true ∧
    (processImage s body).1.processing = false ∧
    (processImage s body).2 ≠ Except.error ProcError.busy := by
  rcases hb : body resetPState with ⟨ps, r⟩
  cases r with
  | ok a => simp [processImage, hml, hp, hb]
  | error e => simp [processImage, hml, hp, hb]

/-- C2: While a request is in flight (busy flag set) a second
`processImage` call fails immediately with the busy error and leaves the
whole processor state — including the in-flight `ProcessingState` — exactly
as it was; and any call accepted when idle ends with the busy flag cleared
whether its body succeeds or fails, so a subsequent call is never rejected
as busy. -/
theorem claim_c2 (s : ProcessorSt) (body body2 : PState → PState × Except Unit ℕ)
    (hml : s.modelLoaded = true) :
    (s.processing = true → processImage s body = (s, Except.error ProcError.busy)) ∧
    (s.processing = false →
      (processImage s body).1.processing = false ∧
      (processImage (processImage s body).1 body2).2 ≠ Except.error ProcError.busy) := by
  constructor
  · intro hp
    simp [processImage, hml, hp]
  · intro hp
    obtain ⟨h1, h2, _⟩ := processImage_not_busy s body hml hp
    exact ⟨h2, (processImage_not_busy _ body2 h1 h2).2.2⟩

/-- Witness for C2: the busy rejection on a concrete busy processor. -/
theorem claim_c2_witness :
    processImage ⟨true, true, resetPState⟩ (fun ps => (ps, Except.ok 0)) =
      (⟨true, true, resetPState⟩, Except.error ProcError.busy) :=
  (claim_c2 ⟨true, true, resetPState⟩ (fun ps => (ps, Except.ok 0))
    (fun ps => (ps, Except.ok 0)) rfl).1 rfl

/-! ## Output shape of `processChunk` (lines 466-552) and the path choice
(lines 328-339, 554-562)

The inference engine is abstracted as `run`, taking the input shape and the
planar input array and returning the output tensor; `processChunk` sizes its
output buffer from the OUTPUT tensor's `dims`. -/

structure RawImage where
  width : ℕ
  height : ℕ
  channels : ℕ
  data : ℕ → ℤ

structure OutTensor where
  channels : ℕ
  height : ℕ
  width : ℕ
  data : ℕ → ℚ

/-- Tile runner `processChunk` (lines 466-552): encode per model class, run inference,
decode using the output tensor's channel count and dimensions. -/
def processChunk (isGray : Bool) (run : List ℕ → (ℕ → ℚ) → OutTensor)
    (img : RawImage) : RawImage :=
  let inputArray : ℕ → ℚ :=
    if isGray then encodeGray (fun i => (img.data i : ℚ)) img.channels img.height img.width
    else encodeColor (fun i => (img.data i : ℚ)) img.channels img.height img.width
  let t := run [1, if isGray then 1 else 3, img.height, img.width] inputArray
  { width := t.width, height := t.height, channels := t.channels,
    data := decodeChunkOutput t.data t.channels t.height t.width }

/-- Output dimensions of a `processImage` request: images exceeding the tile
size in either dimension go through chunked reassembly onto a
`width × height` 3-channel canvas (lines 554-562); otherwise the single
`processChunk` result is returned as is (lines 328-339). -/
def processImageDims (isGray : Bool) (run : List ℕ → (ℕ → ℚ) → OutTensor)
    (T : ℕ) (img : RawImage) : ℕ × ℕ × ℕ :=
  if T < img.width ∨ T < img.height then (img.width, img.height, 3)
  else ((processChunk isGray run img).width, (processChunk isGray run img).height,
        (processChunk isGray run img).channels)

/-- A grayscale model producing a 1-channel `1×1×8×8` output tensor, as the
introspector's grayscale probe expects of grayscale models. -/
def grayProbeModel : List ℕ → (ℕ → ℚ) → OutTensor := fun _ arr =>
  { channels := 1, height := 8, width := 8, data := arr }

def smallImage : RawImage := { width := 8, height := 8, channels := 3, data := fun _ => 100 }

/-- Counterexample to C4 as stated: an 8×8 3-channel input processed with a
grayscale model (output tensor `1×1×8×8`) yields a 1-channel output, not a
3-channel one. -/
theorem claim_c4_counterexample :
    processImageDims true grayProbeModel DEFAULT_CHUNK_SIZE smallImage ≠
      (smallImage.width, smallImage.height, 3) := by
  decide

/-- C4 amended: The non-chunked path returns an image with the model's
output-tensor dimensions and channel count, and the chunked path an image of
input dimensions with 3 channels; hence whenever the model's output tensor
preserves the input dimensions and carries 3 channels — the expected case
for color restoration models — the result has exactly the input's pixel
dimensions and 3 channels (no alpha). -/
theorem claim_c4_amended (isGray : Bool) (run : List ℕ → (ℕ → ℚ) → OutTensor)
    (T : ℕ) (img : RawImage)
    (hrun : ∀ shape arr, (run shape arr).channels = 3 ∧
      (run shape arr).height = img.height ∧ (run shape arr).width = img.width) :
    processImageDims isGray run T img = (img.width, img.height, 3) := by
  unfold processImageDims
  split
  · rfl
  · unfold processChunk
    dsimp only
    rw [(hrun _ _).1, (hrun _ _).2.1, (hrun _ _).2.2]

/-- A dimension-preserving 3-channel model on the 8×8 test image. -/
def idColorModel : List ℕ → (ℕ → ℚ) → OutTensor := fun _ arr =>
  { channels := 3, height := 8, width := 8, data := arr }

/-- Witness for the amended C4. -/
theorem claim_c4_witness :
    processImageDims false idColorModel DEFAULT_CHUNK_SIZE smallImage =
      (smallImage.width, smallImage.height, 3) :=
  claim_c4_amended false idColorModel DEFAULT_CHUNK_SIZE smallImage
    (fun _ _ => ⟨rfl, rfl, rfl⟩)

/-! ## Model introspector (`analyzeModelInputs`, lines 206-300)

Input names are lists of characters; `String.prototype.includes` becomes a
boolean substring test, `toLowerCase` a character-wise map.  The trial
inferences of the grayscale/color probe are external engine behaviour and
are abstracted as `probe : name → Option Bool` (`some true` = grayscale
accepted, `some false` = color accepted, `none` = both attempts failed). -/

def lowerName (n : List Char) : List Char := n.map Char.toLower

def startsWithCL : List Char → List Char → Bool
  | [], _ => true
  | _ :: _, [] => false
  | a :: as, b :: bs => a == b && startsWithCL as bs

/-- Boolean substring test: `haystack.includes(needle)`. -/
def containsCL (needle : List Char) : List Char → Bool
  | [] => needle.isEmpty
  | b :: bs => startsWithCL needle (b :: bs) || containsCL needle bs

/-- The quality-name test of lines 274-276: the lowercased name contains
"qf", "quality" or "strength". -/
def isQualityName (n : List Char) : Bool :=
  containsCL "qf".toList (lowerName n) || containsCL "quality".toList (lowerName n) ||
    containsCL "strength".toList (lowerName n)

/-- First pass (lines 272-283): scan input names in order, skipping the image
input, for a quality-like name; `break` on the first hit. -/
def firstQualityMatch (names : List (List Char)) (img : List Char) :
    Option (List Char) :=
  names.find? fun n => (n != img) && isQualityName n

/-- Quality detection (lines 272-291): name scan, then the two-input
positional fallback. -/
def detectQuality (names : List (List Char)) (img : List Char) :
    Bool × Option (List Char) :=
  match firstQualityMatch names img with
  | some n => (true, some n)
  | none =>
    if names.length = 2 then
      match names.find? fun n => n != img with
      | some n => (true, some n)
      | none => (false, none)
    else (false, none)

/-- Candidate image inputs (lines 219-229): names containing "input",
"image" or "x", the exact name "input", or every name when the model has a
single input; falling back to the first declared input. -/
def imageCandidates (names : List (List Char)) : List (List Char) :=
  let base := names.filter fun n =>
    containsCL "input".toList (lowerName n) || containsCL "image".toList (lowerName n) ||
    containsCL "x".toList (lowerName n) || n == "input".toList || names.length == 1
  if base.isEmpty then [names.headD []] else base

/-- The probe loop (lines 231-270): first candidate the engine accepts wins,
otherwise fall back to the first declared input assumed color. -/
def selectImageInput (names : List (List Char)) (probe : List Char → Option Bool) :
    List Char × Bool :=
  match (imageCandidates names).findSome? fun cand => (probe cand).map fun g => (cand, g) with
  | some r => r
  | none => (names.headD [], false)

/-- Record `ModelInfo` (lines 86-92), minus the shape field (not used by the
claims). -/
structure ModelInfo where
  imageInputName : List Char
  isGrayscale : Bool
  hasQualityInput : Bool
  qualityInputName : Option (List Char)
deriving DecidableEq, Repr

/-- Introspector `analyzeModelInputs` (lines 206-300). -/
def analyzeModelInputs (names : List (List Char)) (probe : List Char → Option Bool) :
    ModelInfo :=
  let sel := selectImageInput names probe
  let q := detectQuality names sel.1
  { imageInputName := sel.1, isGrayscale := sel.2,
    hasQualityInput := q.1, qualityInputName := q.2 }

/-! ### find? helper lemmas -/

lemma find?_first {α : Type} (p : α → Bool) :
    ∀ (l₁ : List α) (n : α) (l₂ : List α), (∀ m ∈ l₁, p m = false) → p n = true →
      (l₁ ++ n :: l₂).find? p = some n := by
  intro l₁
  induction l₁ with
  | nil =>
    intro n l₂ _ hn
    exact List.find?_cons_of_pos _ hn
  | cons a l ih =>
    intro n l₂ h hn
    rw [List.cons_append,
      List.find?_cons_of_neg _ (by simp [h a (List.mem_cons_self a l)])]
    exact ih n l₂ (fun m hm => h m (List.mem_cons_of_mem a hm)) hn

lemma firstQualityMatch_eq_none {names : List (List Char)} {img : List Char}
    (h : ∀ m ∈ names, m = img ∨ isQualityName m = false) :
    firstQualityMatch names img = none := by
  apply List.find?_eq_none.mpr
  intro n hn
  rcases h n hn with rfl | hq
  · simp
  · simp [hq]

/-- C8: Quality-input detection: (1) the first non-image name containing
"qf"/"quality"/"strength" (case-insensitive) is marked as the quality input;
(2) only when no name matches and the model has exactly two inputs is the
non-image input assumed to be the quality input; (3) with no match and an
input count other than two, no quality input is detected; and (4) a model
with a single declared input always gets that input as image input and
`hasQualityInput = false`, whatever the probe does. -/
theorem claim_c8 :
    (∀ (names : List (List Char)) (img n : List Char) (l₁ l₂ : List (List Char)),
      names = l₁ ++ n :: l₂ →
      (∀ m ∈ l₁, m = img ∨ isQualityName m = false) →
      n ≠ img → isQualityName n = true →
      detectQuality names img = (true, some n)) ∧
    (∀ (names : List (List Char)) (img n : List Char) (l₁ l₂ : List (List Char)),
      (∀ m ∈ names, m = img ∨ isQualityName m = false) →
      names.length = 2 →
      names = l₁ ++ n :: l₂ → (∀ m ∈ l₁, m = img) → n ≠ img →
      detectQuality names img = (true, some n)) ∧
    (∀ (names : List (List Char)) (img : List Char),
      (∀ m ∈ names, m = img ∨ isQualityName m = false) →
      names.length ≠ 2 →
      detectQuality names img = (false, none)) ∧
    (∀ (n : List Char) (probe : List Char → Option Bool),
      (analyzeModelInputs [n] probe).hasQualityInput = false ∧
      (analyzeModelInputs [n] probe).imageInputName = n) := by
  refine ⟨?_, ?_, ?_, ?_⟩
  · rintro names img n l₁ l₂ rfl hskip hne hq
    have hfind : firstQualityMatch (l₁ ++ n :: l₂) img = some n := by
      apply find?_first _ l₁ n l₂
      · intro m hm
        rcases hskip m hm with rfl | hq0
        · simp
        · simp [hq0]
      · simp [hq, bne_iff_ne, hne]
    simp [detectQuality, hfind]
  · rintro names img n l₁ l₂ hall hlen rfl hskip hne
    have hnone := firstQualityMatch_eq_none hall
    have hfind : (l₁ ++ n :: l₂).find? (fun m => m != img) = some n := by
      apply find?_first _ l₁ n l₂
      · intro m hm
        simp [hskip m hm]
      · simp [bne_iff_ne, hne]
    simp [detectQuality, hnone, hlen, hfind]
  · intro names img hall hlen
    have hnone := firstQualityMatch_eq_none hall
    simp [detectQuality, hnone, hlen]
  · intro n probe
    have hcand : imageCandidates [n] = [n] := by
      simp [imageCandidates, List.filter]
    have hsel : (selectImageInput [n] probe).1 = n := by
      unfold selectImageInput
      rw [hcand]
      rcases hp : probe n with - | g
      · simp [hp, List.headD]
      · simp [hp]
    have hdq : detectQuality [n] n = (false, none) := by
      have h1 : firstQualityMatch [n] n = none := by
        apply List.find?_eq_none.mpr
        intro m hm
        rcases List.mem_singleton.mp hm with rfl
        simp
      simp [detectQuality, h1]
    constructor
    · show (detectQuality [n] (selectImageInput [n] probe).1).1 = false
      rw [hsel, hdq]
    · exact hsel

/-- Witness for C8: a two-input model named `image` / `qf`; the second input
is detected by name, and the single-input model case. -/
theorem claim_c8_witness :
    detectQuality ["image".toList, "qf".toList] "image".toList =
      (true, some "qf".toList) :=
  claim_c8.1 ["image".toList, "qf".toList] "image".toList "qf".toList
    ["image".toList] [] rfl (by decide) (by decide) (by decide)

/-! ## `getProcessingState` returns a copy (lines 644-646)

JS objects live on a heap; references are indices, `next` is the allocation
frontier.  `return { ...this.processingState }` allocates a fresh cell
carrying the same field values and hands out the fresh reference. -/

structure PHeap where
  cells : ℕ → PState
  next : ℕ

def readRef (hp : PHeap) (r : ℕ) : PState := hp.cells r

def writeRef (hp : PHeap) (r : ℕ) (v : PState) : PHeap :=
  { cells := fun j => if j = r then v else hp.cells j, next := hp.next }

/-- Accessor `getProcessingState` (lines 644-646): spread-copy into a fresh object. -/
def getProcessingState (hp : PHeap) (stRef : ℕ) : PHeap × ℕ :=
  ({ cells := fun j => if j = hp.next then readRef hp stRef else hp.cells j,
     next := hp.next + 1 }, hp.next)

/-- A caller mutating an object it holds: a sequence of in-place updates
through one reference. -/
def applyMutations (hp : PHeap) (r : ℕ) : List (PState → PState) → PHeap
  | [] => hp
  | f :: fs => applyMutations (writeRef hp r (f (readRef hp r))) r fs

lemma applyMutations_read_ne :
    ∀ (fs : List (PState → PState)) (hp : PHeap) (r j : ℕ), j ≠ r →
      readRef (applyMutations hp r fs) j = readRef hp j := by
  intro fs
  induction fs with
  | nil => intro hp r j _; rfl
  | cons f fs ih =>
    intro hp r j hj
    show readRef (applyMutations (writeRef hp r (f (readRef hp r))) r fs) j = _
    rw [ih _ _ _ hj]
    simp [readRef, writeRef, hj]

/-- C10: `getProcessingState` returns a copy: whatever sequence of
mutations the caller applies through the returned reference, the processor's
internal state cell is unchanged, and a later `getProcessingState` call
still sees (and copies) the original value. -/
theorem claim_c10 (hp : PHeap) (stRef : ℕ) (fs : List (PState → PState))
    (hvalid : stRef < hp.next) :
    readRef (applyMutations (getProcessingState hp stRef).1
      (getProcessingState hp stRef).2 fs) stRef = readRef hp stRef ∧
    readRef
      (getProcessingState (applyMutations (getProcessingState hp stRef).1
        (getProcessingState hp stRef).2 fs) stRef).1
      (getProcessingState (applyMutations (getProcessingState hp stRef).1
        (getProcessingState hp stRef).2 fs) stRef).2 = readRef hp stRef := by
  have hne : stRef ≠ hp.next := Nat.ne_of_lt hvalid
  have h1 : readRef (applyMutations (getProcessingState hp stRef).1
      (getProcessingState hp stRef).2 fs) stRef = readRef hp stRef := by
    have h2 := applyMutations_read_ne fs (getProcessingState hp stRef).1
      (getProcessingState hp stRef).2 stRef hne
    rw [h2]
    simp [getProcessingState, readRef, hne]
  refine ⟨h1, ?_⟩
  simpa [getProcessingState, readRef] using h1

/-- Witness for C10: a one-cell heap whose copy is clobbered after the
read. -/
theorem claim_c10_witness :
    readRef (applyMutations (getProcessingState ⟨fun _ => resetPState, 1⟩ 0).1
      (getProcessingState ⟨fun _ => resetPState, 1⟩ 0).2 [fun _ => ⟨5, 5, 5, 5⟩]) 0 =
      readRef ⟨fun _ => resetPState, 1⟩ 0 ∧
    readRef
      (getProcessingState (applyMutations (getProcessingState ⟨fun _ => resetPState, 1⟩ 0).1
        (getProcessingState ⟨fun _ => resetPState, 1⟩ 0).2 [fun _ => ⟨5, 5, 5, 5⟩]) 0).1
      (getProcessingState (applyMutations (getProcessingState ⟨fun _ => resetPState, 1⟩ 0).1
        (getProcessingState ⟨fun _ => resetPState, 1⟩ 0).2 [fun _ => ⟨5, 5, 5, 5⟩]) 0).2 =
      readRef ⟨fun _ => resetPState, 1⟩ 0 :=
  claim_c10 ⟨fun _ => resetPState, 1⟩ 0 [fun _ => ⟨5, 5, 5, 5⟩] (by decide)

end DeJpeg
